import Mathlib

/-!
# Verification of the mRVM Matrix library (src/src/lib/Matrix.cc)

A shallow embedding of the Matrix class of the mRVM repository.  The C++
code stores a matrix as a GSL matrix: a height (size1), a width (size2)
and a flat row-major buffer of doubles whose row stride (tda) equals the
width for every matrix the code allocates.  We model the buffer as a
list of rationals (exact arithmetic in place of IEEE doubles; every
concrete input used below is exactly representable) and model the GSL /
CBLAS backend calls from their documented semantics.
-/

namespace jason

/-- Model of a `gsl_matrix` as allocated by this library: `size1` is the
height, `size2` the width, and `data` the flat row-major buffer, a list
with row stride `tda = size2`. -/
structure Matrix where
  size1 : ℕ
  size2 : ℕ
  data : List ℚ
  deriving DecidableEq, Repr

/-- `Matrix::Height()`: returns `m->size1`. -/
def Matrix.Height (m : Matrix) : ℕ := m.size1

/-- `Matrix::Width()`: returns `m->size2`. -/
def Matrix.Width (m : Matrix) : ℕ := m.size2

/-- `gsl_matrix_get(m, i, j)`: reads `m->data[i * tda + j]` with
`tda = size2`.  Out-of-range reads (which GSL would trap) are given the
junk value 0; every claim below only relies on in-range reads. -/
def Matrix.get (m : Matrix) (i j : ℕ) : ℚ := m.data.getD (i * m.size2 + j) 0

/-- `gsl_matrix_set(m, i, j, x)`: writes `m->data[i * tda + j] = x` with
`tda = size2`.  (`List.set` past the end of the list is a no-op.) -/
def Matrix.set (m : Matrix) (i j : ℕ) (x : ℚ) : Matrix :=
  ⟨m.size1, m.size2, m.data.set (i * m.size2 + j) x⟩

/-- A matrix is well formed when its buffer has exactly `size1 * size2`
entries — true of every matrix the library allocates. -/
def Matrix.wf (m : Matrix) : Prop := m.data.length = m.size1 * m.size2

instance (m : Matrix) : Decidable m.wf := by unfold Matrix.wf; infer_instance

/-- `Matrix::Matrix(double *data, size_t height, size_t width)`: allocates
a `height × width` matrix and sets entry `(row, col)` to
`data[row * width + col]` for every `row < height`, `col < width`; since
the freshly allocated matrix has `tda = width`, the loop copies the first
`height * width` buffer entries in order. -/
def matrixFromBuffer (data : List ℚ) (height width : ℕ) : Matrix :=
  ⟨height, width, (List.range (height * width)).map (fun k => data.getD k 0)⟩

/-- `Matrix::Clone()`: `new Matrix(this->m->data, this->Width(), this->Height())`
— note that the constructor signature is `(data, height, width)`, so the
clone is built with height `Width()` and width `Height()`. -/
def Matrix.Clone (m : Matrix) : Matrix := matrixFromBuffer m.data m.Width m.Height

/-- Dot product of two lists (reference semantics for one entry of a
matrix product). -/
def dotProd (xs ys : List ℚ) : ℚ := (List.zipWith (· * ·) xs ys).sum

/-- Row `i` of a matrix as the list of its `size2` entries. -/
def Matrix.rowList (m : Matrix) (i : ℕ) : List ℚ :=
  (List.range m.size2).map (fun j => m.get i j)

/-- Column `j` of a matrix as the list of its `size1` entries. -/
def Matrix.colList (m : Matrix) (j : ℕ) : List ℚ :=
  (List.range m.size1).map (fun i => m.get i j)

/-- `cblas_dgemm(CblasRowMajor, CblasNoTrans, CblasTrans, M, N, K, 1.0,
A, lda, B, ldb, 0.0, C, ldc)` with `ldc = N` (the case used by
`Matrix::Multiply(Matrix*)`): produces the `M * N` row-major buffer with
`C[i * N + j] = Σ_{l<K} A[i * lda + l] * B[j * ldb + l]`. -/
def dgemmNT (A B : List ℚ) (M N K lda ldb : ℕ) : List ℚ :=
  (List.range (M * N)).map (fun idx =>
    ((List.range K).map (fun l =>
      A.getD ((idx / N) * lda + l) 0 * B.getD ((idx % N) * ldb + l) 0)).sum)

/-- `Matrix::Multiply(Matrix *other)`: allocates a
`Height() × other->Height()` result, fills it with
`cblas_dgemm(RowMajor, NoTrans, Trans, Height(), other->Height(), Width(),
1.0, data, Width(), other->data, other->Width(), 0.0, result, other->Height())`
and returns `new Matrix(result->data, Height(), other->Height())`.
No dimension check is performed. -/
def Matrix.Multiply (a b : Matrix) : Matrix :=
  matrixFromBuffer (dgemmNT a.data b.data a.size1 b.size1 a.size2 a.size2 b.size2)
    a.size1 b.size1

/-- Model of a `gsl_vector` as allocated by this library: a length and a
contiguous buffer (stride 1). -/
structure Vector where
  size : ℕ
  data : List ℚ
  deriving DecidableEq, Repr

/-- `Vector::Size()` returns the vector's length (`v->size`).  Modelled
from the spec: the Vector implementation file is not part of the given
sources; per the data model a Vector is a fixed-length contiguous buffer
exposing its size. -/
def Vector.Size (v : Vector) : ℕ := v.size

/-- The length of the Vector returned by `Matrix::Multiply(Vector *vec)`:
the code allocates `result = gsl_vector_calloc(vec->Size())` and returns
`new Vector(result->data, result->size)`, so the returned length is
`vec->Size()` — independent of the matrix height.  (The accompanying
`cblas_dgemm` call passes `ldc = 1`, so for `Height() >= 2` its writes to
`result` overlap and run past the buffer; the resulting contents are not
well defined and are not modelled, only the returned length is.) -/
def Matrix.MultiplyVecSize (_m : Matrix) (v : Vector) : ℕ := v.Size

/-- `Matrix::Row(size_t row)`: allocates a vector of length `Width()` and
copies row `row` into it (`gsl_matrix_get_row`); returns an independent
copy. -/
def Matrix.Row (m : Matrix) (row : ℕ) : Vector := ⟨m.Width, m.rowList row⟩

/-- `Matrix::Column(size_t col)`: allocates a vector of length `Height()`
and copies column `col` into it (`gsl_matrix_get_col`). -/
def Matrix.Column (m : Matrix) (col : ℕ) : Vector := ⟨m.Height, m.colList col⟩

/-- `Matrix::SetRow(size_t row, Vector *vec)` = `gsl_matrix_set_row`:
overwrites `data[row * tda + col]` with `vec->data[col]` for every
`col < size2`; a flat index `k` is overwritten exactly when
`k / size2 = row` (then `k = row * size2 + (k % size2)`). -/
def Matrix.SetRow (m : Matrix) (row : ℕ) (v : Vector) : Matrix :=
  ⟨m.size1, m.size2, (List.range m.data.length).map (fun k =>
    if k / m.size2 = row then v.data.getD (k % m.size2) 0 else m.data.getD k 0)⟩

/-- `Matrix::SetColumn(size_t col, Vector *vec)` = `gsl_matrix_set_col`:
overwrites `data[row * tda + col]` with `vec->data[row]` for every
`row < size1`; a flat index `k` is overwritten exactly when
`k % size2 = col` and `k / size2 < size1`. -/
def Matrix.SetColumn (m : Matrix) (col : ℕ) (v : Vector) : Matrix :=
  ⟨m.size1, m.size2, (List.range m.data.length).map (fun k =>
    if k % m.size2 = col ∧ k / m.size2 < m.size1 then v.data.getD (k / m.size2) 0
    else m.data.getD k 0)⟩

/-! ## CloneGSLMatrix and Invert

`Matrix::CloneGSLMatrix()` allocates a fresh `height × width` gsl matrix
into a local variable `m` (shadowing the member `this->m`) and then runs

    this->Set(row, col, *(this->m->data + row * width + col));

for every `row < height`, `col < width` — i.e. it writes the RECEIVER,
not the fresh matrix, and writes each receiver cell with its own current
value (`tda = width`, so `Set(row, col, ·)` targets exactly flat index
`row * width + col`).  The fresh matrix is returned still holding
whatever uninitialized contents `gsl_matrix_alloc` produced.  We model
the uninitialized contents as an arbitrary parameter `junk` and the
write loop literally, as a fold of `Set` calls in the loop's row-major
order. -/

/-- The write loop of `CloneGSLMatrix` applied to the receiver: for each
flat index `k = row * width + col` in increasing order, perform
`Set(row, col, data[row * width + col])` on the current receiver state. -/
def Matrix.cloneGslWrites (m : Matrix) : Matrix :=
  (List.range (m.size1 * m.size2)).foldl
    (fun acc k => acc.set (k / m.size2) (k % m.size2)
      (acc.data.getD ((k / m.size2) * m.size2 + (k % m.size2)) 0)) m

/-- `Matrix::CloneGSLMatrix()`: returns the pair (returned gsl matrix,
receiver after the call).  The returned matrix has the receiver's
dimensions but holds the uninitialized allocation contents `junk`; the
receiver undergoes the (self-assigning) write loop. -/
def Matrix.CloneGSLMatrix (m : Matrix) (junk : List ℚ) : Matrix × Matrix :=
  (⟨m.size1, m.size2, junk⟩, m.cloneGslWrites)

/-- Delete row `i` and column `j` from a square matrix given as a list of
rows (used for Laplace expansion). -/
def minorRows (rows : List (List ℚ)) (i j : ℕ) : List (List ℚ) :=
  (rows.eraseIdx i).map (fun r => r.eraseIdx j)

/-- Determinant by Laplace expansion along the first row, with a fuel
argument (structural recursion so that it evaluates by `rfl`); the minor
of `r :: rs` deleting row 0 and column `j` is `rs.map (·.eraseIdx j)`,
and each recursive call drops one row, so fuel `rows.length` suffices. -/
def detRowsAux : ℕ → List (List ℚ) → ℚ
  | _, [] => 1
  | 0, _ :: _ => 1
  | fuel + 1, r :: rs =>
    ((List.range r.length).map
      (fun j => (-1 : ℚ) ^ j * r.getD j 0 *
        detRowsAux fuel (rs.map (fun row => row.eraseIdx j)))).sum

/-- Determinant of a square matrix given as a list of rows. -/
def detRows (rows : List (List ℚ)) : ℚ := detRowsAux rows.length rows

/-- Matrix inverse via the adjugate: entry `(i, j)` of the inverse is
`(-1)^(i+j) * det(minor j i) / det`.  This models the net documented
effect of the GSL backend pair `gsl_linalg_LU_decomp` +
`gsl_linalg_LU_invert` (LU decomposition with partial pivoting followed
by solving for the inverse): over exact arithmetic the backend computes
exactly the matrix inverse of its input, and any correct algorithm gives
the same matrix. -/
def gslLUInvertRows (rows : List (List ℚ)) : List (List ℚ) :=
  let d := detRows rows
  (List.range rows.length).map (fun i =>
    (List.range rows.length).map (fun j =>
      (-1 : ℚ) ^ (i + j) * detRows (minorRows rows j i) / d))

/-- The rows of a matrix as a list of lists (marshalling into the LU
backend, which receives the flat row-major buffer with `tda = size2`). -/
def Matrix.rowsOf (m : Matrix) : List (List ℚ) :=
  (List.range m.size1).map m.rowList

/-- `Matrix::Invert()`: with `n = Width()`, takes `copy = CloneGSLMatrix()`
(which returns a fresh matrix holding uninitialized contents `junk` and
self-assigns the receiver), LU-decomposes and LU-inverts `copy` into a
fresh `n × n` matrix `inverse`, and returns
`new Matrix(inverse->data, n, n)`.  Result: the pair (returned matrix,
receiver after the call). -/
def Matrix.Invert (m : Matrix) (junk : List ℚ) : Matrix × Matrix :=
  let n := m.Width
  let cl := m.CloneGSLMatrix junk
  let inverse := gslLUInvertRows cl.1.rowsOf
  (matrixFromBuffer inverse.flatten n n, cl.2)

/-! ## Sphering -/

/-- `gsl_stats_mean(data, 1, n)`: the arithmetic mean of the `n` values. -/
def statsMean (x : List ℚ) : ℚ := x.sum / x.length

/-- The sample variance `Σ (x_i - mean)^2 / (n - 1)` of a list of values.
`gsl_stats_sd(data, 1, n)` returns its nonnegative square root; square
roots of rationals are irrational in general, so the sphering model
below receives the standard-deviation value as a parameter characterized
by this quantity. -/
def sampleVar (x : List ℚ) : ℚ :=
  ((x.map (fun v => (v - statsMean x) ^ 2)).sum) / (x.length - 1 : ℕ)

/-- The per-column body of `Matrix::Sphere()` on the extracted column
copy `vec`: `gsl_vector_add_constant(vec, -mean)` followed by
`gsl_vector_scale(vec, 1.0 / stdev)`, where `mean = gsl_stats_mean(vec)`
and `s` stands for the value `stdev = gsl_stats_sd(vec)` (the
nonnegative square root of `sampleVar`). -/
def sphereColumn (x : List ℚ) (s : ℚ) : List ℚ :=
  x.map (fun v => (v - statsMean x) * (1 / s))

/-- `Matrix::Sphere()`: for `col = 0, 1, ..., Width() - 1` in order,
extract `vec = Column(col)` from the current matrix, normalize it with
`sphereColumn`, and write it back with `gsl_matrix_set_col`.  The
backend standard-deviation values are supplied as `sd col` (one per
column), characterized against `sampleVar` in the theorems below. -/
def Matrix.Sphere (m : Matrix) (sd : ℕ → ℚ) : Matrix :=
  (List.range m.size2).foldl
    (fun acc col => acc.SetColumn col ⟨acc.Height, sphereColumn (acc.colList col) (sd col)⟩)
    m

/-! ## File parsing

`Matrix::Matrix(const char *filename)` reads the whole file through
`fgetc` twice (rewinding in between) and then through `gsl_matrix_fscanf`.
We model the file contents as the list of its characters. -/

/-- C `isspace` on the characters that can occur in a text file: space,
tab, newline, vertical tab, form feed, carriage return. -/
def isSpaceC (c : Char) : Bool :=
  c = ' ' ∨ c = '\t' ∨ c = '\n' ∨ c = '\x0b' ∨ c = '\x0c' ∨ c = '\r'

/-- The loop of `Matrix::NumberOfRows(FILE *f)`: reads characters until
EOF, incrementing the count on every transition from a newline (or the
initial state `lastChar = '\n'`) to a non-newline character. -/
def numberOfRowsScan : List Char → Char → ℕ
  | [], _ => 0
  | c :: rest, last =>
    (if last = '\n' ∧ c ≠ '\n' then 1 else 0) + numberOfRowsScan rest c

/-- `Matrix::NumberOfRows(FILE *f)` on a file with the given contents:
the scan starts with `lastChar = '\n'` and `count = 0`. -/
def NumberOfRows (f : List Char) : ℕ := numberOfRowsScan f '\n'

/-- The loop of `Matrix::NumberOfColumns(FILE *f)`: reads characters
until a newline is read, incrementing the count on every transition from
a whitespace character (initially `lastChar = ' '`) to a non-whitespace
character.  If the input is exhausted before a newline is read the loop
does not exit (see `numberOfColumnsFuel`); this total version returns
`none` in that case. -/
def numberOfColsScan : List Char → Char → ℕ → Option ℕ
  | [], _, _ => none
  | c :: rest, last, count =>
    if c = '\n' then some count
    else numberOfColsScan rest c (count + if isSpaceC last ∧ ¬ isSpaceC c then 1 else 0)

/-- `Matrix::NumberOfColumns(FILE *f)` on a file with the given contents
(`some count` when the loop exits). -/
def NumberOfColumns (f : List Char) : Option ℕ := numberOfColsScan f ' ' 0

/-- Step-counting version of the `NumberOfColumns` loop.  Each recursive
step models one iteration (one `fgetc`).  Once the input is exhausted,
`fgetc` returns `EOF`; stored into the `char` variable `currentChar`,
`EOF` is not `'\n'`, so the loop body runs again with the file still at
end-of-file — the state repeats forever.  (The count update at EOF
depends on `isspace(EOF)`, which is never observable since the loop
never exits; we leave the state unchanged.)  `none` means the loop has
not exited within `fuel` iterations. -/
def numberOfColumnsFuel : ℕ → List Char → Char → ℕ → Option ℕ
  | 0, _, _, _ => none
  | fuel + 1, [], last, count => numberOfColumnsFuel fuel [] last count
  | fuel + 1, c :: rest, last, count =>
    if c = '\n' then some count
    else numberOfColumnsFuel fuel rest c
      (count + if isSpaceC last ∧ ¬ isSpaceC c then 1 else 0)

/-- Splits a character list at newlines: returns (the first line, the
remaining lines), so that `splitNlAux f = (l₀, [l₁, ..., lₖ])` lists the
newline-separated lines of the file. -/
def splitNlAux : List Char → List Char × List (List Char)
  | [] => ([], [])
  | c :: rest =>
    let p := splitNlAux rest
    if c = '\n' then ([], p.1 :: p.2) else (c :: p.1, p.2)

/-- The newline-separated lines of a file. -/
def linesOf (f : List Char) : List (List Char) := (splitNlAux f).1 :: (splitNlAux f).2

/-- The first line of a file: the characters before the first newline. -/
def firstLine (f : List Char) : List Char := f.takeWhile (fun c => c ≠ '\n')

/-- Splits a character list into whitespace-delimited tokens: returns
(the maximal non-whitespace prefix, the tokens of the rest). -/
def tokensAux : List Char → List Char × List (List Char)
  | [] => ([], [])
  | c :: rest =>
    let p := tokensAux rest
    if isSpaceC c then ([], if p.1 = [] then p.2 else p.1 :: p.2)
    else (c :: p.1, p.2)

/-- The whitespace-delimited tokens of a character list (maximal runs of
non-whitespace characters). -/
def tokens (f : List Char) : List (List Char) :=
  if (tokensAux f).1 = [] then (tokensAux f).2 else (tokensAux f).1 :: (tokensAux f).2

/-- Numeric value of a token, modelling the `%lg` conversion performed
by `fscanf` inside `gsl_matrix_fscanf` on the simple decimal tokens the
format uses: an optional leading minus sign, integer digits, and an
optional fraction part after a point. -/
def parseDigits (ds : List Char) : ℕ :=
  ds.foldl (fun acc d => 10 * acc + d.toNat - '0'.toNat) 0

/-- Value of an unsigned decimal token: integer digits, then an optional
fraction part after a point. -/
def parseDecCore (t : List Char) : ℚ :=
  let intPart := t.takeWhile (fun c => c ≠ '.')
  let fracPart := (t.dropWhile (fun c => c ≠ '.')).drop 1
  (parseDigits intPart : ℚ) + (parseDigits fracPart : ℚ) / 10 ^ fracPart.length

/-- Parse a decimal token (optional minus sign, digits, optional
fractional digits) as a rational. -/
def parseDec (t : List Char) : ℚ :=
  match t with
  | '-' :: rest => -parseDecCore rest
  | _ => parseDecCore t

/-- `Matrix::Matrix(const char *filename)` on a file with the given
contents: counts rows with `NumberOfRows` (rewinding after), counts
columns with `NumberOfColumns` (rewinding after), allocates a
`rows × cols` matrix and fills it with `gsl_matrix_fscanf`, which reads
the next `rows * cols` whitespace-delimited tokens of the file in
row-major order.  `none` when the column-counting loop does not
terminate (no newline in the file). -/
def matrixFromFile (f : List Char) : Option Matrix :=
  match NumberOfColumns f with
  | none => none
  | some cols =>
    let rows := NumberOfRows f
    some ⟨rows, cols, ((tokens f).take (rows * cols)).map parseDec⟩

/-! ## Helper lemmas -/

theorem getD_range_map (f : ℕ → ℚ) {n k : ℕ} (h : k < n) (d : ℚ) :
    ((List.range n).map f).getD k d = f k := by
  rw [List.getD_eq_getElem?_getD, List.getElem?_map, List.getElem?_range h]
  rfl

theorem selfMapGetD (l : List ℚ) :
    (List.range l.length).map (fun k => l.getD k 0) = l := by
  apply List.ext_getElem
  · simp
  · intro i h1 h2
    simp only [List.getElem_map, List.getElem_range]
    exact List.getD_eq_getElem l 0 h2

theorem set_getD_self (l : List ℚ) (i : ℕ) : l.set i (l.getD i 0) = l := by
  induction l generalizing i with
  | nil => simp
  | cons a t ih =>
    cases i with
    | zero => simp
    | succ n => simpa using ih n

theorem index_flat_lt {i j M N : ℕ} (hi : i < M) (hj : j < N) : i * N + j < M * N :=
  calc i * N + j < i * N + N := by omega
    _ = (i + 1) * N := by ring
    _ ≤ M * N := Nat.mul_le_mul_right N hi

theorem flat_div {i j N : ℕ} (hj : j < N) : (i * N + j) / N = i := by
  rw [Nat.mul_comm i N, Nat.mul_add_div (by omega), Nat.div_eq_of_lt hj]
  omega

theorem flat_mod {i j N : ℕ} (hj : j < N) : (i * N + j) % N = j := by
  rw [Nat.mul_comm i N, Nat.mul_add_mod, Nat.mod_eq_of_lt hj]

theorem matrixFromBuffer_size (data : List ℚ) (h w : ℕ) :
    (matrixFromBuffer data h w).size1 = h ∧ (matrixFromBuffer data h w).size2 = w ∧
      (matrixFromBuffer data h w).wf := by
  refine ⟨rfl, rfl, ?_⟩
  simp [matrixFromBuffer, Matrix.wf]

theorem matrixFromBuffer_get (data : List ℚ) {h w i j : ℕ} (hi : i < h) (hj : j < w) :
    (matrixFromBuffer data h w).get i j = data.getD (i * w + j) 0 := by
  unfold matrixFromBuffer Matrix.get
  exact getD_range_map _ (index_flat_lt hi hj) 0

theorem dgemmNT_getD (A B : List ℚ) {M N : ℕ} (K lda ldb : ℕ) {i j : ℕ}
    (hi : i < M) (hj : j < N) :
    (dgemmNT A B M N K lda ldb).getD (i * N + j) 0 =
      ((List.range K).map
        (fun l => A.getD (i * lda + l) 0 * B.getD (j * ldb + l) 0)).sum := by
  unfold dgemmNT
  rw [getD_range_map _ (index_flat_lt hi hj) 0, flat_div hj, flat_mod hj]

theorem Multiply_size (a b : Matrix) :
    (a.Multiply b).size1 = a.size1 ∧ (a.Multiply b).size2 = b.size1 ∧
      (a.Multiply b).wf :=
  matrixFromBuffer_size _ _ _

theorem Multiply_get (a b : Matrix) {i j : ℕ} (hi : i < a.size1) (hj : j < b.size1) :
    (a.Multiply b).get i j =
      ((List.range a.size2).map (fun l => a.get i l * b.get j l)).sum := by
  unfold Matrix.Multiply
  rw [matrixFromBuffer_get _ hi hj, dgemmNT_getD _ _ _ _ _ hi hj]
  rfl

theorem zipWith_self_eq_map {α β : Type} (f : α → α → β) (l : List α) :
    List.zipWith f l l = l.map (fun x => f x x) := by
  induction l with
  | nil => rfl
  | cons a t ih => simp [ih]

theorem dotProd_maps (f g : ℕ → ℚ) (n : ℕ) :
    dotProd ((List.range n).map f) ((List.range n).map g) =
      ((List.range n).map (fun l => f l * g l)).sum := by
  unfold dotProd
  rw [List.zipWith_map, zipWith_self_eq_map]

/-! ## Claims -/

/-- C1: for every matrix A of shape m×k and every matrix B of shape n×k,
Multiply(A, B) returns an m×n matrix whose entry (i, j) is the dot
product of row i of A and row j of B (the transpose-on-the-right-operand
convention), for all i < m and j < n. -/
theorem C1_multiply_transpose_convention (A B : Matrix) (m k n : ℕ)
    (hA1 : A.size1 = m) (hA2 : A.size2 = k) (_hAwf : A.wf)
    (hB1 : B.size1 = n) (hB2 : B.size2 = k) (_hBwf : B.wf) :
    (A.Multiply B).size1 = m ∧ (A.Multiply B).size2 = n ∧
    ∀ i j, i < m → j < n →
      (A.Multiply B).get i j = dotProd (A.rowList i) (B.rowList j) := by
  subst hA1 hA2 hB1
  refine ⟨(Multiply_size A B).1, (Multiply_size A B).2.1, ?_⟩
  intro i j hi hj
  rw [Multiply_get A B hi hj]
  unfold Matrix.rowList
  rw [hB2, dotProd_maps]

/-- Witness for C1 at A = [[1, 2], [3, 4]], B = [[5, 6], [7, 8]]:
entry (0, 1) of A·Bᵗ equals the dot product of A row 0 and B row 1. -/
theorem C1_multiply_transpose_convention_witness :
    ((⟨2, 2, [1, 2, 3, 4]⟩ : Matrix).Multiply ⟨2, 2, [5, 6, 7, 8]⟩).get 0 1 =
      dotProd ((⟨2, 2, [1, 2, 3, 4]⟩ : Matrix).rowList 0)
        ((⟨2, 2, [5, 6, 7, 8]⟩ : Matrix).rowList 1) :=
  (C1_multiply_transpose_convention ⟨2, 2, [1, 2, 3, 4]⟩ ⟨2, 2, [5, 6, 7, 8]⟩
    2 2 2 rfl rfl (by decide) rfl rfl (by decide)).2.2 0 1 (by decide) (by decide)

/-- C2 (evaluation at the failing input): cloning the 1×2 matrix [[1, 2]]
produces a 2×1 matrix.  `Clone` passes `(data, Width(), Height())` to the
`(data, height, width)` constructor, so for every non-square matrix the
clone's dimensions are transposed, contradicting the claim (which the
code clearly intends: a clone with identical dimensions). -/
theorem C2_clone_swaps_dimensions :
    (Matrix.Clone ⟨1, 2, [1, 2]⟩).size1 = 2 ∧ (Matrix.Clone ⟨1, 2, [1, 2]⟩).size2 = 1 ∧
      (⟨1, 2, [1, 2]⟩ : Matrix).size1 = 1 ∧ (⟨1, 2, [1, 2]⟩ : Matrix).size2 = 2 :=
  ⟨rfl, rfl, rfl, rfl⟩

/-- C4 (evaluation at the failing input): for the 2×3 matrix A and a
vector v of length 3, `Multiply(Vector*)` returns a Vector of length 3 —
`vec->Size()`, from `gsl_vector_calloc(vec->Size())` and
`new Vector(result->data, result->size)` — not of length `Height() = 2`
as the claim states. -/
theorem C4_multiply_vector_length_bug :
    Matrix.MultiplyVecSize ⟨2, 3, [1, 2, 3, 4, 5, 6]⟩ ⟨3, [1, 1, 1]⟩ = 3 ∧
      (⟨2, 3, [1, 2, 3, 4, 5, 6]⟩ : Matrix).Height = 2 ∧ (3 : ℕ) ≠ 2 :=
  ⟨rfl, rfl, by decide⟩

/-- C7 (counterexample): for A = [[2]] (width 1) and B = [[3, 4]]
(width 2) the widths differ, yet Multiply(A, B) does not fail — the code
contains no dimension check — and returns the 1×1 matrix [[6]]. -/
theorem C7_no_dimension_check_counterexample :
    (⟨1, 1, [2]⟩ : Matrix).size2 ≠ (⟨1, 2, [3, 4]⟩ : Matrix).size2 ∧
      (⟨1, 1, [2]⟩ : Matrix).Multiply ⟨1, 2, [3, 4]⟩ = ⟨1, 1, [6]⟩ := by
  refine ⟨by decide, ?_⟩
  show matrixFromBuffer (dgemmNT [2] [3, 4] 1 1 1 1 2) 1 1 = (⟨1, 1, [6]⟩ : Matrix)
  have h1 : List.range 1 = [0] := rfl
  simp [matrixFromBuffer, dgemmNT, h1, Matrix.mk.injEq]
  norm_num

/-- C7 (amended): Multiply performs no dimension check at all: for all
matrices A and B — equal widths or not — it returns a matrix of shape
A.Height × B.Height whose entry (i, j) is the dgemm value
Σ_{l < A.Width} A.data[i·A.Width + l] · B.data[j·B.Width + l], reading
the right operand's flat buffer with row stride B.Width (out of bounds
when A.Width > B.Width). -/
theorem C7_multiply_no_width_check (A B : Matrix) :
    (A.Multiply B).size1 = A.size1 ∧ (A.Multiply B).size2 = B.size1 ∧
    ∀ i j, i < A.size1 → j < B.size1 →
      (A.Multiply B).get i j =
        ((List.range A.size2).map
          (fun l => A.data.getD (i * A.size2 + l) 0 *
            B.data.getD (j * B.size2 + l) 0)).sum := by
  refine ⟨(Multiply_size A B).1, (Multiply_size A B).2.1, ?_⟩
  intro i j hi hj
  exact Multiply_get A B hi hj

/-- Witness for C7's amended theorem at the width-mismatched pair
A = [[2]], B = [[3, 4]]: entry (0, 0) is A[0][0]·B[0][0] as given by the
dgemm formula. -/
theorem C7_multiply_no_width_check_witness :
    ((⟨1, 1, [2]⟩ : Matrix).Multiply ⟨1, 2, [3, 4]⟩).get 0 0 =
      ((List.range 1).map
        (fun l => ([2] : List ℚ).getD (0 * 1 + l) 0 *
          ([3, 4] : List ℚ).getD (0 * 2 + l) 0)).sum :=
  (C7_multiply_no_width_check ⟨1, 1, [2]⟩ ⟨1, 2, [3, 4]⟩).2.2 0 0
    (by decide) (by decide)

/-- C8: for every well-formed matrix M and row index i < height,
SetRow(M, i, Row(M, i)) leaves M entirely unchanged (dimensions and all
elements). -/
theorem C8_setRow_row_identity (m : Matrix) (i : ℕ) (hi : i < m.size1) (hwf : m.wf) :
    m.SetRow i (m.Row i) = m := by
  obtain ⟨s1, s2, data⟩ := m
  have hlen : data.length = s1 * s2 := hwf
  simp only [Matrix.SetRow, Matrix.mk.injEq, true_and]
  have hmap : ∀ k ∈ List.range data.length,
      (if k / s2 = i then (Matrix.Row ⟨s1, s2, data⟩ i).data.getD (k % s2) 0
        else data.getD k 0) = data.getD k 0 := by
    intro k hk
    rw [List.mem_range] at hk
    by_cases hdiv : k / s2 = i
    · have hs2 : 0 < s2 := by
        rcases Nat.eq_zero_or_pos s2 with h0 | h0
        · rw [h0, Nat.mul_zero] at hlen
          omega
        · exact h0
      have hmod : k % s2 < s2 := Nat.mod_lt _ hs2
      simp only [if_pos hdiv, Matrix.Row, Matrix.rowList]
      rw [getD_range_map _ hmod 0]
      show data.getD (i * s2 + k % s2) 0 = data.getD k 0
      rw [← hdiv, Nat.mul_comm, Nat.div_add_mod]
    · simp only [if_neg hdiv]
  rw [List.map_congr_left hmap]
  exact selfMapGetD data

/-- Witness for C8 at M = [[1, 2], [3, 4]], row 0. -/
theorem C8_setRow_row_identity_witness :
    (⟨2, 2, [1, 2, 3, 4]⟩ : Matrix).SetRow 0
      ((⟨2, 2, [1, 2, 3, 4]⟩ : Matrix).Row 0) = ⟨2, 2, [1, 2, 3, 4]⟩ :=
  C8_setRow_row_identity ⟨2, 2, [1, 2, 3, 4]⟩ 0 (by decide) (by decide)

/-- Each write of the `CloneGSLMatrix` loop rewrites a receiver cell with
its own current value, hence leaves the receiver unchanged. -/
theorem step_id (s1 s2 : ℕ) (data : List ℚ) (k : ℕ) :
    (Matrix.mk s1 s2 data).set (k / s2) (k % s2)
      (data.getD (k / s2 * s2 + k % s2) 0) = Matrix.mk s1 s2 data := by
  have hk : k / s2 * s2 + k % s2 = k := by
    rw [Nat.mul_comm]
    exact Nat.div_add_mod k s2
  simp only [Matrix.set, hk, set_getD_self]

/-- The write loop of `CloneGSLMatrix` leaves the receiver unchanged. -/
theorem cloneGslWrites_id (m : Matrix) : m.cloneGslWrites = m := by
  unfold Matrix.cloneGslWrites
  generalize List.range (m.size1 * m.size2) = L
  suffices h : ∀ acc : Matrix, acc.size2 = m.size2 →
      L.foldl (fun acc k => acc.set (k / m.size2) (k % m.size2)
        (acc.data.getD (k / m.size2 * m.size2 + k % m.size2) 0)) acc = acc by
    exact h m rfl
  induction L with
  | nil => intro acc _; rfl
  | cons k t ih =>
    intro acc hacc
    rw [List.foldl_cons]
    have hstep : acc.set (k / m.size2) (k % m.size2)
        (acc.data.getD (k / m.size2 * m.size2 + k % m.size2) 0) = acc := by
      obtain ⟨s1, s2, d⟩ := acc
      simp only at hacc
      rw [← hacc]
      exact step_id s1 s2 d k
    rw [hstep]
    exact ih acc hacc

/-- C9: for every square matrix M (with arbitrary uninitialized
allocation contents `junk`), Invert returns a freshly built n×n matrix
(n = Width) with a full n·n buffer, and the receiver is left with
exactly its original dimensions and elements. -/
theorem C9_invert_frame (m : Matrix) (junk : List ℚ) (_hsq : m.size1 = m.size2) :
    (m.Invert junk).2 = m ∧ (m.Invert junk).1.size1 = m.size2 ∧
      (m.Invert junk).1.size2 = m.size2 ∧ (m.Invert junk).1.wf := by
  refine ⟨?_, rfl, rfl, ?_⟩
  · exact cloneGslWrites_id m
  · exact (matrixFromBuffer_size _ _ _).2.2

/-- Witness for C9 at M = [[1]] with uninitialized contents [2]. -/
theorem C9_invert_frame_witness :
    ((⟨1, 1, [1]⟩ : Matrix).Invert [2]).2 = ⟨1, 1, [1]⟩ ∧
      ((⟨1, 1, [1]⟩ : Matrix).Invert [2]).1.size1 = 1 ∧
      ((⟨1, 1, [1]⟩ : Matrix).Invert [2]).1.size2 = 1 ∧
      ((⟨1, 1, [1]⟩ : Matrix).Invert [2]).1.wf :=
  C9_invert_frame ⟨1, 1, [1]⟩ [2] rfl

/-- On input containing no newline, the `NumberOfColumns` loop never
exits, whatever the scan state. -/
theorem numberOfColumnsFuel_none (fuel : ℕ) :
    ∀ (f : List Char) (last : Char) (count : ℕ), '\n' ∉ f →
      numberOfColumnsFuel fuel f last count = none := by
  induction fuel with
  | zero => intro f last count _; rfl
  | succ n ih =>
    intro f last count h
    cases f with
    | nil => exact ih [] last count h
    | cons c rest =>
      have hc : ¬ (c = '\n') := fun e => h (e ▸ List.mem_cons_self c rest)
      simp only [numberOfColumnsFuel, if_neg hc]
      exact ih rest c _ (fun hm => h (List.mem_cons_of_mem c hm))

/-- The total model of the scan agrees: no newline means no exit. -/
theorem numberOfColsScan_none (f : List Char) (h : '\n' ∉ f) :
    ∀ (last : Char) (count : ℕ), numberOfColsScan f last count = none := by
  induction f with
  | nil => intro _ _; rfl
  | cons c rest ih =>
    intro last count
    have hc : ¬ (c = '\n') := fun e => h (e ▸ List.mem_cons_self c rest)
    simp only [numberOfColsScan, if_neg hc]
    exact ih (fun hm => h (List.mem_cons_of_mem c hm)) c _

/-- C10: for every file whose first line is not terminated by a newline
(equivalently, containing no newline at all — including the empty file),
the column-counting loop of the file-path constructor never returns: no
number of loop iterations makes it exit (once end-of-file is reached,
`fgetc` keeps returning `EOF`, which is stored in a `char` and is never
equal to `'\n'`), and consequently the constructor never completes. -/
theorem C10_numberOfColumns_nontermination (f : List Char) (h : '\n' ∉ f) :
    (∀ fuel, numberOfColumnsFuel fuel f ' ' 0 = none) ∧
      NumberOfColumns f = none ∧ matrixFromFile f = none := by
  refine ⟨fun fuel => numberOfColumnsFuel_none fuel f ' ' 0 h, ?_, ?_⟩
  · exact numberOfColsScan_none f h ' ' 0
  · unfold matrixFromFile
    rw [show NumberOfColumns f = none from numberOfColsScan_none f h ' ' 0]

/-- Witness for C10 at the newline-free file "1 2". -/
theorem C10_numberOfColumns_nontermination_witness :
    '\n' ∉ ['1', ' ', '2'] ∧ numberOfColumnsFuel 100 ['1', ' ', '2'] ' ' 0 = none ∧
      matrixFromFile ['1', ' ', '2'] = none :=
  ⟨by decide, (C10_numberOfColumns_nontermination ['1', ' ', '2'] (by decide)).1 100,
    (C10_numberOfColumns_nontermination ['1', ' ', '2'] (by decide)).2.2⟩

/-- The number of non-blank (nonempty) lines in a list of lines. -/
def countNonBlank (ls : List (List Char)) : ℕ := (ls.filter (fun l => !l.isEmpty)).length

/-- The row-counting scan counts exactly the nonempty newline-separated
lines: started at the beginning of a line (`last = '\n'`) it counts every
nonempty line of the remaining input; started mid-line it counts every
nonempty line after the current one. -/
theorem numberOfRowsScan_eq (f : List Char) :
    ∀ last, numberOfRowsScan f last =
      if last = '\n' then countNonBlank (linesOf f)
      else countNonBlank (splitNlAux f).2 := by
  induction f with
  | nil =>
    intro last
    by_cases h : last = '\n' <;> simp [h, numberOfRowsScan, linesOf, splitNlAux, countNonBlank]
  | cons c rest ih =>
    intro last
    by_cases hc : c = '\n'
    · subst hc
      have hsplit : splitNlAux ('\n' :: rest) =
          ([], (splitNlAux rest).1 :: (splitNlAux rest).2) := by
        simp [splitNlAux]
      by_cases h : last = '\n' <;>
        simp [h, numberOfRowsScan, ih '\n', linesOf, hsplit, countNonBlank]
    · have hsplit : splitNlAux (c :: rest) =
          (c :: (splitNlAux rest).1, (splitNlAux rest).2) := by
        simp [splitNlAux, hc]
      by_cases h : last = '\n'
      · simp [h, hc, numberOfRowsScan, ih c, linesOf, hsplit, countNonBlank]
        omega
      · simp [h, hc, numberOfRowsScan, ih c, linesOf, hsplit, countNonBlank]

/-- `Matrix::NumberOfRows` returns the number of non-blank lines. -/
theorem numberOfRows_eq (f : List Char) : NumberOfRows f = countNonBlank (linesOf f) := by
  rw [NumberOfRows, numberOfRowsScan_eq f '\n', if_pos rfl]

/-- `tokensAux` computes (maximal non-whitespace prefix, tokens of the
rest). -/
theorem tokensAux_eq (l : List Char) :
    tokensAux l = (l.takeWhile (fun c => !isSpaceC c),
      tokens (l.dropWhile (fun c => !isSpaceC c))) := by
  induction l with
  | nil => rfl
  | cons c rest ih =>
    by_cases hc : isSpaceC c
    · simp [tokensAux, hc, tokens, List.takeWhile, List.dropWhile]
    · simp [tokensAux, hc, List.takeWhile, List.dropWhile, ih]

/-- Prepending a whitespace character does not change the token list. -/
theorem tokens_space_cons {c : Char} (hc : isSpaceC c) (l : List Char) :
    tokens (c :: l) = tokens l := by
  simp [tokens, tokensAux, hc]

/-- Prepending a non-whitespace character extends the first token. -/
theorem tokens_nonspace_cons {c : Char} (hc : ¬ isSpaceC c) (l : List Char) :
    tokens (c :: l) = (c :: l.takeWhile (fun x => !isSpaceC x)) ::
      tokens (l.dropWhile (fun x => !isSpaceC x)) := by
  have h := tokensAux_eq (c :: l)
  simp only [List.takeWhile, List.dropWhile, hc] at h
  simp only [tokens, h]
  simp [hc]

/-- The column-counting scan, on input containing a newline, returns the
running count plus the number of whitespace-delimited tokens before the
first newline (skipping the current token first when the scan starts
mid-token). -/
theorem numberOfColsScan_eq (f : List Char) :
    ∀ last count, '\n' ∈ f →
      numberOfColsScan f last count = some (count +
        if isSpaceC last then (tokens (firstLine f)).length
        else (tokens ((firstLine f).dropWhile (fun c => !isSpaceC c))).length) := by
  induction f with
  | nil => intro _ _ h; cases h
  | cons c rest ih =>
    intro last count h
    by_cases hc : c = '\n'
    · subst hc
      have hfl : firstLine ('\n' :: rest) = [] := by
        simp [firstLine, List.takeWhile]
      simp [numberOfColsScan, hfl, tokens, tokensAux]
    · have hmem : '\n' ∈ rest := by
        rcases List.mem_cons.mp h with h1 | h1
        · exact absurd h1.symm hc
        · exact h1
      have hfl : firstLine (c :: rest) = c :: firstLine rest := by
        simp [firstLine, List.takeWhile, hc]
      have hspace : isSpaceC '\n' = true := by decide
      by_cases hcs : isSpaceC c
      · by_cases hl : isSpaceC last
        · simp [numberOfColsScan, hc, hl, hcs, ih c count hmem, hfl,
            tokens_space_cons hcs]
        · have hdrop : (c :: firstLine rest).dropWhile (fun x => !isSpaceC x) =
              c :: firstLine rest := by
            simp [List.dropWhile, hcs]
          simp [numberOfColsScan, hc, hl, hcs, ih c count hmem, hfl, hdrop,
            tokens_space_cons hcs]
      · by_cases hl : isSpaceC last
        · rw [numberOfColsScan, if_neg hc, if_pos ⟨hl, hcs⟩]
          rw [ih c (count + 1) hmem]
          rw [hfl, tokens_nonspace_cons hcs]
          simp [hl, hcs]
          omega
        · have hdrop : (c :: firstLine rest).dropWhile (fun x => !isSpaceC x) =
              (firstLine rest).dropWhile (fun x => !isSpaceC x) := by
            simp [List.dropWhile, hcs]
          simp [numberOfColsScan, hc, hl, hcs, ih c count hmem, hfl, hdrop]

/-- `Matrix::NumberOfColumns`, on a file containing a newline, returns
the number of whitespace-delimited tokens on the first line. -/
theorem numberOfColumns_eq (f : List Char) (h : '\n' ∈ f) :
    NumberOfColumns f = some ((tokens (firstLine f)).length) := by
  rw [NumberOfColumns, numberOfColsScan_eq f ' ' 0 h]
  norm_num [show isSpaceC ' ' = true from rfl]

/-- C6: the file-path constructor detects the number of rows as the
count of non-blank (nonempty) lines and the number of columns as the
count of whitespace-delimited tokens on the first line, then fills the
matrix row-major with the file's parsed tokens; in particular the file
"1 2 3\n4 5 6\n" parses to the 2×3 matrix [[1, 2, 3], [4, 5, 6]]. -/
theorem C6_file_parsing (f : List Char) (h : '\n' ∈ f) :
    NumberOfRows f = countNonBlank (linesOf f) ∧
    NumberOfColumns f = some ((tokens (firstLine f)).length) ∧
    matrixFromFile f = some ⟨countNonBlank (linesOf f), (tokens (firstLine f)).length,
      ((tokens f).take (countNonBlank (linesOf f) * (tokens (firstLine f)).length)).map
        parseDec⟩ ∧
    matrixFromFile ['1', ' ', '2', ' ', '3', '\n', '4', ' ', '5', ' ', '6', '\n'] =
      some ⟨2, 3, [1, 2, 3, 4, 5, 6]⟩ := by
  refine ⟨numberOfRows_eq f, numberOfColumns_eq f h, ?_, ?_⟩
  · unfold matrixFromFile
    rw [numberOfColumns_eq f h, numberOfRows_eq f]
  · have hcols : NumberOfColumns ['1', ' ', '2', ' ', '3', '\n', '4', ' ', '5', ' ', '6', '\n'] =
        some 3 := by decide
    have hrows : NumberOfRows ['1', ' ', '2', ' ', '3', '\n', '4', ' ', '5', ' ', '6', '\n'] =
        2 := by decide
    have htok : tokens ['1', ' ', '2', ' ', '3', '\n', '4', ' ', '5', ' ', '6', '\n'] =
        [['1'], ['2'], ['3'], ['4'], ['5'], ['6']] := by decide
    unfold matrixFromFile
    rw [hcols, hrows, htok]
    simp [parseDec, parseDecCore, parseDigits, List.takeWhile, List.dropWhile]

/-- Witness for C6 at the example file "1 2 3\n4 5 6\n". -/
theorem C6_file_parsing_witness :
    NumberOfColumns ['1', ' ', '2', ' ', '3', '\n', '4', ' ', '5', ' ', '6', '\n'] =
      some ((tokens (firstLine
        ['1', ' ', '2', ' ', '3', '\n', '4', ' ', '5', ' ', '6', '\n'])).length) :=
  (C6_file_parsing ['1', ' ', '2', ' ', '3', '\n', '4', ' ', '5', ' ', '6', '\n']
    (by decide)).2.1

theorem sum_map_affine (x : List ℚ) (a b : ℚ) :
    (x.map (fun v => (v - a) * b)).sum = (x.sum - x.length * a) * b := by
  induction x with
  | nil => simp
  | cons v t ih =>
    simp only [List.map_cons, List.sum_cons, List.length_cons, ih]
    push_cast
    ring

theorem sum_map_sq_mul (x : List ℚ) (a b : ℚ) :
    (x.map (fun v => ((v - a) * b) ^ 2)).sum =
      (x.map (fun v => (v - a) ^ 2)).sum * b ^ 2 := by
  induction x with
  | nil => simp
  | cons v t ih =>
    simp only [List.map_cons, List.sum_cons, ih]
    ring

/-- If the backend standard deviation is nonzero, the column was not
empty (an empty column has sample variance 0). -/
theorem ne_nil_of_sd (x : List ℚ) (s : ℚ) (hs : s ≠ 0)
    (hvar : s ^ 2 = sampleVar x) : x ≠ [] := by
  rintro rfl
  rw [show sampleVar ([] : List ℚ) = 0 from by simp [sampleVar, statsMean]] at hvar
  exact hs (pow_eq_zero_iff (by norm_num) |>.mp hvar)

/-- A sphered column has mean exactly 0. -/
theorem statsMean_sphereColumn (x : List ℚ) (s : ℚ) (hx : x ≠ []) :
    statsMean (sphereColumn x s) = 0 := by
  have hn : (x.length : ℚ) ≠ 0 := by
    have h1 : x.length ≠ 0 := fun h => hx (List.length_eq_zero.mp h)
    exact_mod_cast h1
  unfold sphereColumn statsMean
  rw [List.length_map, sum_map_affine]
  have hz : x.sum - (x.length : ℚ) * (x.sum / (x.length : ℚ)) = 0 := by
    field_simp
  rw [hz, zero_mul, zero_div]

/-- A sphered column has sample variance exactly 1 when the supplied
standard deviation is nonzero and squares to the column's sample
variance. -/
theorem sampleVar_sphereColumn (x : List ℚ) (s : ℚ) (hs : s ≠ 0)
    (hvar : s ^ 2 = sampleVar x) :
    sampleVar (sphereColumn x s) = 1 := by
  have hx : x ≠ [] := ne_nil_of_sd x s hs hvar
  have hmean : statsMean (sphereColumn x s) = 0 := statsMean_sphereColumn x s hx
  rw [sampleVar] at hvar
  have hD : ((x.length - 1 : ℕ) : ℚ) ≠ 0 := by
    intro h0
    rw [h0, div_zero] at hvar
    exact hs (pow_eq_zero_iff (by norm_num) |>.mp hvar)
  have hSeq : (x.map (fun v => (v - statsMean x) ^ 2)).sum =
      s ^ 2 * ((x.length - 1 : ℕ) : ℚ) := (div_eq_iff hD).mp hvar.symm
  rw [sampleVar]
  simp only [hmean, sub_zero]
  unfold sphereColumn
  rw [List.map_map, List.length_map]
  have hcomp : ((fun w => w ^ 2) ∘ fun v => (v - statsMean x) * (1 / s)) =
      fun v => ((v - statsMean x) * (1 / s)) ^ 2 := rfl
  rw [hcomp, sum_map_sq_mul, hSeq]
  field_simp

/-- `SetColumn` preserves well-formedness (and, definitionally, both
dimensions). -/
theorem setColumn_wf (m : Matrix) (c : ℕ) (v : Vector) (hwf : m.wf) :
    (m.SetColumn c v).wf := by
  unfold Matrix.wf Matrix.SetColumn at *
  simpa using hwf

/-- Entry-level description of `SetColumn` on a well-formed matrix. -/
theorem get_setColumn (m : Matrix) (c : ℕ) (v : Vector) (hwf : m.wf) {r c2 : ℕ}
    (hr : r < m.size1) (hc2 : c2 < m.size2) :
    (m.SetColumn c v).get r c2 = if c2 = c then v.data.getD r 0 else m.get r c2 := by
  obtain ⟨s1, s2, data⟩ := m
  have hlen : data.length = s1 * s2 := hwf
  have hr' : r < s1 := hr
  have hc2' : c2 < s2 := hc2
  show ((List.range data.length).map _).getD (r * s2 + c2) 0 = _
  have hidx : r * s2 + c2 < data.length := by
    rw [hlen]
    exact index_flat_lt hr' hc2'
  rw [getD_range_map _ hidx 0]
  simp only [flat_mod hc2', flat_div hc2']
  by_cases hcc : c2 = c
  · rw [if_pos (⟨hcc, hr'⟩ : c2 = c ∧ r < s1), if_pos hcc]
  · rw [if_neg (fun h => hcc (And.left h)), if_neg hcc]
    rfl

/-- `SetColumn` writes the given values into the target column. -/
theorem colList_setColumn_same (m : Matrix) (c : ℕ) (v : Vector) (hwf : m.wf)
    (hc : c < m.size2) (hv : v.data.length = m.size1) :
    (m.SetColumn c v).colList c = v.data := by
  unfold Matrix.colList
  have hsz : (m.SetColumn c v).size1 = m.size1 := rfl
  rw [hsz]
  have hmap : ∀ r ∈ List.range m.size1,
      (m.SetColumn c v).get r c = v.data.getD r 0 := by
    intro r hr
    rw [List.mem_range] at hr
    rw [get_setColumn m c v hwf hr hc, if_pos rfl]
  rw [List.map_congr_left hmap, ← hv]
  exact selfMapGetD v.data

/-- `SetColumn` leaves every other column unchanged. -/
theorem colList_setColumn_other (m : Matrix) (c : ℕ) (v : Vector) (hwf : m.wf)
    {c2 : ℕ} (hc2 : c2 < m.size2) (hne : c2 ≠ c) :
    (m.SetColumn c v).colList c2 = m.colList c2 := by
  unfold Matrix.colList
  have hsz : (m.SetColumn c v).size1 = m.size1 := rfl
  rw [hsz]
  refine List.map_congr_left ?_
  intro r hr
  rw [List.mem_range] at hr
  rw [get_setColumn m c v hwf hr hc2, if_neg hne]

/-- The length of a sphered column equals the matrix height. -/
theorem sphereColumn_colList_length (m : Matrix) (c : ℕ) (s : ℚ) :
    (sphereColumn (m.colList c) s).length = m.size1 := by
  unfold sphereColumn Matrix.colList
  simp

/-- Characterization of the `Sphere` loop over an arbitrary worklist of
distinct in-range column indices: each listed column is replaced by its
sphered values (computed from the ORIGINAL matrix, since distinct
columns do not interact), all others are untouched, and the dimensions
are preserved. -/
theorem sphere_foldl (sd : ℕ → ℚ) (cs : List ℕ) :
    ∀ (m : Matrix), m.wf → (∀ c ∈ cs, c < m.size2) → cs.Nodup →
      (cs.foldl (fun acc col =>
          acc.SetColumn col ⟨acc.Height, sphereColumn (acc.colList col) (sd col)⟩)
        m).size1 = m.size1 ∧
      (cs.foldl (fun acc col =>
          acc.SetColumn col ⟨acc.Height, sphereColumn (acc.colList col) (sd col)⟩)
        m).size2 = m.size2 ∧
      (cs.foldl (fun acc col =>
          acc.SetColumn col ⟨acc.Height, sphereColumn (acc.colList col) (sd col)⟩)
        m).wf ∧
      ∀ c, c < m.size2 →
        (cs.foldl (fun acc col =>
            acc.SetColumn col ⟨acc.Height, sphereColumn (acc.colList col) (sd col)⟩)
          m).colList c =
          if c ∈ cs then sphereColumn (m.colList c) (sd c) else m.colList c := by
  induction cs with
  | nil =>
    intro m hwf _ _
    exact ⟨rfl, rfl, hwf, fun c _ => by simp⟩
  | cons c0 t ih =>
    intro m hwf hcs nd
    rw [List.foldl_cons]
    have hc0 : c0 < m.size2 := hcs c0 (List.mem_cons_self c0 t)
    have hvlen : (sphereColumn (m.colList c0) (sd c0)).length = m.size1 :=
      sphereColumn_colList_length m c0 (sd c0)
    have hwf' : (m.SetColumn c0 ⟨m.Height, sphereColumn (m.colList c0) (sd c0)⟩).wf :=
      setColumn_wf m c0 _ hwf
    obtain ⟨h1, h2, h3, h4⟩ := ih (m.SetColumn c0 ⟨m.Height, sphereColumn (m.colList c0) (sd c0)⟩)
      hwf' (fun c hc => hcs c (List.mem_cons_of_mem c0 hc)) (List.Nodup.of_cons nd)
    refine ⟨h1, h2, h3, ?_⟩
    intro c hc
    rw [h4 c hc]
    by_cases hct : c ∈ t
    · have hne : c ≠ c0 := by
        intro e
        exact (List.nodup_cons.mp nd).1 (e ▸ hct)
      rw [if_pos hct, colList_setColumn_other m c0 _ hwf hc hne,
        if_pos (List.mem_cons_of_mem c0 hct)]
    · by_cases hcc : c = c0
      · subst hcc
        rw [if_neg hct, colList_setColumn_same m c _ hwf hc0 hvlen,
          if_pos (List.mem_cons_self c t)]
      · rw [if_neg hct, colList_setColumn_other m c0 _ hwf hc hcc,
          if_neg (by simp [hcc, hct])]

/-- After `Sphere`, column `c` holds the sphered values of the original
column `c`, and the dimensions are unchanged. -/
theorem sphere_colList (m : Matrix) (sd : ℕ → ℚ) (hwf : m.wf) :
    (m.Sphere sd).size1 = m.size1 ∧ (m.Sphere sd).size2 = m.size2 ∧
      ∀ c, c < m.size2 →
        (m.Sphere sd).colList c = sphereColumn (m.colList c) (sd c) := by
  have h := sphere_foldl sd (List.range m.size2) m hwf
    (fun c hc => List.mem_range.mp hc) (List.nodup_range m.size2)
  refine ⟨h.1, h.2.1, ?_⟩
  intro c hc
  unfold Matrix.Sphere
  rw [h.2.2.2 c hc, if_pos (List.mem_range.mpr hc)]

/-- C5: for every well-formed matrix M and arbitrary backend
standard-deviation values `sd c` (one per column), Sphere — which
updates M in place, returning nothing, modelled as the state transformer
`Matrix.Sphere` — leaves the dimensions unchanged, and EVERY column
whose original values had nonzero variance (i.e. whose `sd c` is a
nonzero square root of that column's sample variance) ends with mean
exactly 0 and sample variance exactly 1 (hence sample standard
deviation exactly 1, well within the 1e-9 tolerance) — regardless of
what the other columns, zero-variance ones included, contain. -/
theorem C5_sphere_normalization (m : Matrix) (sd : ℕ → ℚ) (hwf : m.wf) :
    (m.Sphere sd).size1 = m.size1 ∧ (m.Sphere sd).size2 = m.size2 ∧
      ∀ c, c < m.size2 → sd c ≠ 0 → (sd c) ^ 2 = sampleVar (m.colList c) →
        statsMean ((m.Sphere sd).colList c) = 0 ∧
        sampleVar ((m.Sphere sd).colList c) = 1 := by
  obtain ⟨h1, h2, h3⟩ := sphere_colList m sd hwf
  refine ⟨h1, h2, ?_⟩
  intro c hc hs hvar
  rw [h3 c hc]
  exact ⟨statsMean_sphereColumn _ _ (ne_nil_of_sd _ _ hs hvar),
    sampleVar_sphereColumn _ _ hs hvar⟩

/-- Witness for C5 at the 3×2 matrix [[1, 5], [2, 5], [3, 5]]: column 1
is constant (zero variance, `sd 1 = 0`), yet column 0 (values [1, 2, 3],
sample variance 1, standard deviation 1) is still normalized. -/
theorem C5_sphere_normalization_witness :
    statsMean (((⟨3, 2, [1, 5, 2, 5, 3, 5]⟩ : Matrix).Sphere
        (fun c => if c = 0 then 1 else 0)).colList 0) = 0 ∧
      sampleVar (((⟨3, 2, [1, 5, 2, 5, 3, 5]⟩ : Matrix).Sphere
        (fun c => if c = 0 then 1 else 0)).colList 0) = 1 :=
  (C5_sphere_normalization ⟨3, 2, [1, 5, 2, 5, 3, 5]⟩
    (fun c => if c = 0 then 1 else 0) (by decide)).2.2 0 (by decide) (by norm_num)
    (by
      have h3 : List.range 3 = [0, 1, 2] := rfl
      norm_num [sampleVar, statsMean, Matrix.colList, Matrix.get, h3])

/-- The standard (non-transposed) matrix product, following the claim's
words ("the library's standard, non-transposed multiply convention"):
entry (i, j) of A·B is Σ_{l < A.width} A[i][l] · B[l][j].  A spec-side
reference definition, used only to state the inversion-identity claim;
it is not an operation of the library. -/
def stdMul (A B : Matrix) : Matrix :=
  ⟨A.size1, B.size2, (List.range (A.size1 * B.size2)).map (fun k =>
    ((List.range A.size2).map (fun l =>
      A.get (k / B.size2) l * B.get l (k % B.size2))).sum)⟩

/-- C3 (evaluation at the failing input): M = [[1]] is invertible (it is
its own inverse), but with uninitialized allocation contents [2] the
code computes Invert(M) = [[1/2]] — the inverse of the junk, because
CloneGSLMatrix writes the receiver instead of the copy it returns, so
the LU step runs on uninitialized memory — and M · Invert(M) = [[1/2]]
under the standard multiply convention, which differs from the 1×1
identity by 1/2, far beyond any 1e-9 tolerance. -/
theorem C3_invert_identity_fails :
    ((⟨1, 1, [1]⟩ : Matrix).Invert [2]).1 = ⟨1, 1, [1/2]⟩ ∧
      stdMul ⟨1, 1, [1]⟩ ((⟨1, 1, [1]⟩ : Matrix).Invert [2]).1 = ⟨1, 1, [1/2]⟩ ∧
      |(1 : ℚ)/2 - 1| > 1/1000000000 := by
  have h1 : List.range 1 = [0] := rfl
  have hinv : ((⟨1, 1, [1]⟩ : Matrix).Invert [2]).1 = ⟨1, 1, [1/2]⟩ := by
    simp [Matrix.Invert, Matrix.CloneGSLMatrix, gslLUInvertRows, detRows, detRowsAux,
      minorRows, Matrix.rowsOf, Matrix.rowList, Matrix.get, matrixFromBuffer,
      Matrix.Width, h1]
  have habs : |(1 : ℚ)/2 - 1| > 1/1000000000 := by
    rw [show (1 : ℚ)/2 - 1 = -(1/2) by norm_num, abs_neg,
      abs_of_pos (by norm_num : (0 : ℚ) < 1/2)]
    norm_num
  refine ⟨hinv, ?_, habs⟩
  rw [hinv]
  simp [stdMul, Matrix.get, h1]

end jason
